import Mathlib

/-!
Verification of the documentation-ingestion pipeline
(`src/scripts/add_new_docs.py`, function `process_and_add_documentation`).

The pipeline iterates over a list of scraped-file groups.  A missing file is
skipped with a warning.  For a present file it loads a list of documents; for
each document it calls the chunker inside a try/except: the try block reads
`doc['content']`, then builds the metadata map reading `doc['title']`,
`doc['source']`, `doc['url']` and the optional `doc.get('doc_type','general')`
and `doc.get('scraped_at','')`, then awaits `chunker.chunk_document` and
extends `chunks_for_this_source`.  The except handler logs an f-string that
itself reads `doc['title']` and then continues with the next document.  After
the loop, if `chunks_for_this_source` is non-empty, it builds `texts`,
`metadatas` and `ids` (the id of the chunk at enumerate position `i` is
`f"{chunk['metadata']['source']}_{i}"`) and makes one `add_documents` call.

The chunker (`SmartDocumentChunker.chunk_document`) is an external
collaborator whose code is not part of the sources; the pipeline is therefore
parametrised by a `Chunker` function, and a spec-modelled instance is given
below for concrete evaluations.
-/

namespace AddNewDocs

/-- A scraped document as decoded from JSON: a dictionary whose fields may be
absent.  `none` models a missing key (a dict access raises `KeyError`). -/
structure Doc where
  content : Option String
  title : Option String
  source : Option String
  url : Option String
  doc_type : Option String
  scraped_at : Option String
deriving DecidableEq

/-- The metadata map the pipeline builds and passes to `chunk_document`
(fields `title`, `source`, `url`, `doc_type`, `scraped_at`). -/
structure ChunkMeta where
  title : String
  source : String
  url : String
  doc_type : String
  scraped_at : String
deriving DecidableEq

/-- A chunk as returned by the chunker: the pipeline reads `chunk['content']`
and `chunk['metadata']` (and, inside the id construction,
`chunk['metadata']['source']`). -/
structure Chunk where
  content : String
  metadata : ChunkMeta
deriving DecidableEq

/-- The external chunker: `chunk_document(content=..., metadata=...)`. -/
abbrev Chunker := String → ChunkMeta → List Chunk

/-- The metadata dictionary literal of lines 51-58 of the script:
`doc_type` and `scraped_at` fall back to `'general'` and `''` via `.get`. -/
def buildMeta (t s u : String) (d : Doc) : ChunkMeta :=
  { title := t
    source := s
    url := u
    doc_type := d.doc_type.getD "general"
    scraped_at := d.scraped_at.getD "" }

/-- Outcome of the per-document try/except body. -/
inductive DocOutcome where
  /-- The try block succeeded; these chunks extend the group buffer. -/
  | ok (chunks : List Chunk)
  /-- The try block raised, the handler logged the error and continued. -/
  | skip
  /-- The handler itself raised (`doc['title']` with `title` missing):
  the exception escapes and aborts the whole run. -/
  | abort
deriving DecidableEq

/-- One iteration of the per-document loop (lines 47-68).  The try block
raises `KeyError` at the first missing key among `content`, `title`,
`source`, `url`; the except handler evaluates `doc['title']` inside its
log f-string, so it re-raises exactly when `title` is missing. -/
def processDoc (chunker : Chunker) (d : Doc) : DocOutcome :=
  match d.content, d.title, d.source, d.url with
  | some c, some t, some s, some u => .ok (chunker c (buildMeta t s u d))
  | _, _, _, _ => if d.title.isSome then .skip else .abort

/-- The per-document loop over one loaded file: returns the accumulated
`chunks_for_this_source` and the number of logged per-document failures, or
`none` when an exception escaped the handler and the run died. -/
def processDocs (chunker : Chunker) : List Doc → Option (List Chunk × Nat)
  | [] => some ([], 0)
  | d :: ds =>
    match processDoc chunker d with
    | .ok cs =>
      match processDocs chunker ds with
      | some (rest, e) => some (cs ++ rest, e)
      | none => none
    | .skip =>
      match processDocs chunker ds with
      | some (rest, e) => some (rest, e + 1)
      | none => none
    | .abort => none

/-- The id assigned at enumerate position `i`:
`f"{chunk['metadata']['source']}_{i}"` (line 77). -/
def chunkId (src : String) (i : Nat) : String :=
  src ++ "_" ++ toString i

/-- The argument triple of one `add_documents` call (lines 75-84). -/
structure AddCall where
  texts : List String
  metadatas : List ChunkMeta
  ids : List String
deriving DecidableEq

/-- Builds the `texts`, `metadatas` and `ids` lists from
`chunks_for_this_source` exactly as lines 75-77 do. -/
def makeAddCall (chunks : List Chunk) : AddCall :=
  { texts := chunks.map (·.content)
    metadatas := chunks.map (·.metadata)
    ids := chunks.enum.map fun p => chunkId p.2.metadata.source p.1 }

/-- Observable result of a completed run: the `add_documents` calls made, in
order, the number of logged per-document failures, and
`total_chunks_added`. -/
structure PipelineResult where
  calls : List AddCall
  skipped : Nat
  total_chunks_added : Nat
deriving DecidableEq

/-- A source group of the `scraped_files` loop: `none` when the file does
not exist (warn and continue), otherwise the decoded document list. -/
abbrev Group := Option (List Doc)

/-- The whole of `process_and_add_documentation` over a list of groups:
per group, run the document loop; if any chunks were produced make exactly
one `add_documents` call for the group; `none` when an exception escaped. -/
def runPipeline (chunker : Chunker) : List Group → Option PipelineResult
  | [] => some ⟨[], 0, 0⟩
  | none :: gs => runPipeline chunker gs
  | some docs :: gs =>
    match processDocs chunker docs with
    | none => none
    | some (chunks, errs) =>
      match runPipeline chunker gs with
      | none => none
      | some r =>
        if chunks.isEmpty then
          some ⟨r.calls, errs + r.skipped, r.total_chunks_added⟩
        else
          some ⟨makeAddCall chunks :: r.calls, errs + r.skipped,
                chunks.length + r.total_chunks_added⟩

/-- The chunks one document contributes to the group buffer (empty unless
its try block succeeded). -/
def docChunks (chunker : Chunker) (d : Doc) : List Chunk :=
  match processDoc chunker d with
  | .ok cs => cs
  | _ => []

/-- The `add_documents` call a group gives rise to, if any: none when the
file is missing or when `chunks_for_this_source` ends up empty. -/
def groupCall (chunker : Chunker) (g : Group) : Option AddCall :=
  match g with
  | none => none
  | some docs =>
    match processDocs chunker docs with
    | none => none
    | some (chunks, _) =>
      if chunks.isEmpty then none else some (makeAddCall chunks)

/-- Modelled from the spec: `SmartDocumentChunker.chunk_document`
(src/chunking/smart_chunker.py) is not among the provided sources.  Per the
spec, empty or whitespace-only content yields an empty chunk sequence and
non-empty content yields at least one chunk; for content within the size
budget the greedy assembler packs everything into a single chunk, and the
metadata propagator attaches the supplied document metadata to each chunk. -/
def specChunker : Chunker := fun content m =>
  if content.data.all Char.isWhitespace then [] else [⟨content, m⟩]


/-- Decimal digit characters of `n`, most significant first. -/
def natDigits (n : Nat) : List Char :=
  if h : n / 10 = 0 then [Nat.digitChar (n % 10)]
  else natDigits (n / 10) ++ [Nat.digitChar (n % 10)]
termination_by n
decreasing_by
  exact Nat.div_lt_self (Nat.pos_of_ne_zero (fun hn => h (by simp [hn]))) (by norm_num)


/-- Concrete documents and metadata used to evaluate the pipeline on
closed inputs. -/
def docA : Doc := ⟨some "A", some "T1", some "s", some "u1", none, none⟩
def docB : Doc := ⟨some "B", some "T2", some "s", some "u2", none, none⟩
def docNoTitle : Doc := ⟨some "B", none, some "s", some "u2", none, none⟩
def docNoContent : Doc := ⟨none, some "T2", some "s", some "u2", none, none⟩
def docNoUrl : Doc := ⟨some "B", some "T2", some "s", none, none, none⟩
def docEmpty : Doc := ⟨some "", some "T1", some "s", some "u1", none, none⟩
def metaA : ChunkMeta := ⟨"T1", "s", "u1", "general", ""⟩
def metaB : ChunkMeta := ⟨"T2", "s", "u2", "general", ""⟩

/-- The per-call id lists of a run, the observable C2 compares between runs. -/
def runIds (r : Option PipelineResult) : Option (List (List String)) :=
  r.map fun x => x.calls.map (·.ids)

theorem toDigitsCore_acc (b : Nat) : ∀ (fuel n : Nat) (ds : List Char),
    Nat.toDigitsCore b fuel n ds = Nat.toDigitsCore b fuel n [] ++ ds := by
  intro fuel
  induction fuel with
  | zero => intro n ds; simp [Nat.toDigitsCore]
  | succ f ih =>
    intro n ds
    simp only [Nat.toDigitsCore]
    by_cases h : n / b = 0
    · simp [h]
    · rw [if_neg h, if_neg h, ih (n / b), ih (n / b) [Nat.digitChar (n % b)],
        List.append_assoc, List.singleton_append]

theorem toDigitsCore_eq_natDigits : ∀ (fuel n : Nat), n < fuel →
    Nat.toDigitsCore 10 fuel n [] = natDigits n := by
  intro fuel
  induction fuel with
  | zero => intro n hn; omega
  | succ f ih =>
    intro n hn
    rw [natDigits]
    simp only [Nat.toDigitsCore]
    by_cases h : n / 10 = 0
    · simp [h]
    · rw [if_neg h, dif_neg h, toDigitsCore_acc, ih (n / 10)]
      have h10 : 10 ≤ n := by
        by_contra hlt
        exact h (Nat.div_eq_of_lt (by omega))
      have := Nat.div_lt_self (by omega : 0 < n) (by norm_num : 1 < 10)
      omega

theorem repr_data (n : Nat) : (Nat.repr n).data = natDigits n := by
  show (List.asString (Nat.toDigits 10 n)).data = natDigits n
  rw [Nat.toDigits, toDigitsCore_eq_natDigits (n + 1) n (Nat.lt_succ_self n)]
  rfl

theorem digitChar_ne_underscore : ∀ m, m < 10 → Nat.digitChar m ≠ '_' := by decide

theorem digitChar_inj10 : ∀ a, a < 10 → ∀ b, b < 10 →
    Nat.digitChar a = Nat.digitChar b → a = b := by decide

theorem underscore_not_mem_natDigits (n : Nat) : '_' ∉ natDigits n := by
  induction n using Nat.strong_induction_on with
  | _ n ih =>
    rw [natDigits]
    by_cases h : n / 10 = 0
    · simp only [dif_pos h, List.mem_singleton]
      exact fun he => digitChar_ne_underscore (n % 10) (Nat.mod_lt n (by norm_num)) he.symm
    · simp only [dif_neg h, List.mem_append, List.mem_singleton]
      rintro (hmem | he)
      · exact ih (n / 10) (Nat.div_lt_self (Nat.pos_of_ne_zero
          (fun hn => h (by simp [hn]))) (by norm_num)) hmem
      · exact digitChar_ne_underscore (n % 10) (Nat.mod_lt _ (by norm_num)) he.symm

theorem natDigits_ne_nil (n : Nat) : natDigits n ≠ [] := by
  rw [natDigits]
  by_cases h : n / 10 = 0 <;> simp [h]

theorem natDigits_eq (n : Nat) : natDigits n =
    if n / 10 = 0 then [Nat.digitChar (n % 10)]
    else natDigits (n / 10) ++ [Nat.digitChar (n % 10)] := by
  rw [natDigits]
  by_cases h : n / 10 = 0 <;> simp [h]

theorem natDigits_inj : ∀ m n, natDigits m = natDigits n → m = n := by
  intro m
  induction m using Nat.strong_induction_on with
  | _ m ih =>
    intro n h
    rw [natDigits_eq m, natDigits_eq n] at h
    by_cases hm : m / 10 = 0 <;> by_cases hn : n / 10 = 0
    · rw [if_pos hm, if_pos hn] at h
      have hd : m % 10 = n % 10 :=
        digitChar_inj10 _ (Nat.mod_lt _ (by norm_num)) _ (Nat.mod_lt _ (by norm_num))
          (List.singleton_injective h)
      omega
    · rw [if_pos hm, if_neg hn] at h
      have := congrArg List.length h
      simp at this
      exact absurd this (natDigits_ne_nil (n / 10))
    · rw [if_neg hm, if_pos hn] at h
      have := congrArg List.length h
      simp at this
      exact absurd this (natDigits_ne_nil (m / 10))
    · rw [if_neg hm, if_neg hn] at h
      obtain ⟨h1, h2⟩ := List.append_inj' h rfl
      have hdiv : m / 10 = n / 10 :=
        ih (m / 10) (Nat.div_lt_self (Nat.pos_of_ne_zero
          (fun hz => hm (by simp [hz]))) (by norm_num)) (n / 10) h1
      have hmod : m % 10 = n % 10 :=
        digitChar_inj10 _ (Nat.mod_lt _ (by norm_num)) _ (Nat.mod_lt _ (by norm_num))
          (List.singleton_injective h2)
      omega

theorem string_last_sep : ∀ (l1 l2 d1 d2 : List Char), '_' ∉ d1 → '_' ∉ d2 →
    l1 ++ '_' :: d1 = l2 ++ '_' :: d2 → l1 = l2 ∧ d1 = d2 := by
  intro l1
  induction l1 with
  | nil =>
    intro l2 d1 d2 h1 h2 h
    cases l2 with
    | nil =>
      simp only [List.nil_append, List.cons.injEq] at h
      exact ⟨rfl, h.2⟩
    | cons c l2' =>
      simp only [List.nil_append, List.cons_append, List.cons.injEq] at h
      exact absurd (h.2 ▸ List.mem_append_right l2' (List.mem_cons_self '_' d2)) h1
  | cons c l1' ih =>
    intro l2 d1 d2 h1 h2 h
    cases l2 with
    | nil =>
      simp only [List.cons_append, List.nil_append, List.cons.injEq] at h
      exact absurd (h.2 ▸ List.mem_append_right l1' (List.mem_cons_self '_' d1)) h2
    | cons c2 l2' =>
      simp only [List.cons_append, List.cons.injEq] at h
      obtain ⟨hc, ht⟩ := h
      obtain ⟨ha, hb⟩ := ih l2' d1 d2 h1 h2 ht
      exact ⟨by rw [hc, ha], hb⟩

theorem chunkId_inj (s t : String) (i j : Nat) (h : chunkId s i = chunkId t j) :
    s = t ∧ i = j := by
  have hd : s.data ++ '_' :: (Nat.repr i).data = t.data ++ '_' :: (Nat.repr j).data := by
    have := congrArg String.data h
    simpa [chunkId, String.data_append, List.append_assoc] using this
  rw [repr_data, repr_data] at hd
  obtain ⟨h1, h2⟩ := string_last_sep _ _ _ _
    (underscore_not_mem_natDigits i) (underscore_not_mem_natDigits j) hd
  exact ⟨String.ext h1, natDigits_inj i j h2⟩

theorem makeAddCall_ids_nodup (chunks : List Chunk) : (makeAddCall chunks).ids.Nodup := by
  have h1 : List.Pairwise (fun p q : Nat × Chunk => p.1 ≠ q.1) chunks.enum := by
    have h0 := List.nodup_range chunks.length
    rw [← List.enum_map_fst] at h0
    exact List.pairwise_map.mp h0
  exact h1.map _ (fun p q hne heq => hne (chunkId_inj _ _ _ _ heq).2)


theorem makeAddCall_texts_getElem (chunks : List Chunk) (k : Nat) :
    (makeAddCall chunks).texts[k]? = (chunks[k]?).map Chunk.content := by
  simp [makeAddCall, List.getElem?_map]

theorem makeAddCall_metadatas_getElem (chunks : List Chunk) (k : Nat) :
    (makeAddCall chunks).metadatas[k]? = (chunks[k]?).map Chunk.metadata := by
  simp [makeAddCall, List.getElem?_map]

theorem makeAddCall_ids_getElem (chunks : List Chunk) (k : Nat) :
    (makeAddCall chunks).ids[k]? =
      (chunks[k]?).map fun c => chunkId c.metadata.source k := by
  simp only [makeAddCall, List.getElem?_map, List.getElem?_enum]
  cases chunks[k]? <;> rfl

theorem makeAddCall_lengths (chunks : List Chunk) :
    (makeAddCall chunks).texts.length = chunks.length ∧
    (makeAddCall chunks).metadatas.length = chunks.length ∧
    (makeAddCall chunks).ids.length = chunks.length := by
  simp [makeAddCall, List.enum_length]

theorem processDocs_eq_flatten (chunker : Chunker) :
    ∀ (ds : List Doc) (chunks : List Chunk) (errs : Nat),
      processDocs chunker ds = some (chunks, errs) →
      chunks = (ds.map (docChunks chunker)).flatten := by
  intro ds
  induction ds with
  | nil =>
    intro chunks errs h
    simp only [processDocs, Option.some.injEq, Prod.mk.injEq] at h
    simp [← h.1]
  | cons d ds ih =>
    intro chunks errs h
    simp only [processDocs] at h
    cases hd : processDoc chunker d with
    | ok cs =>
      rw [hd] at h
      cases hrest : processDocs chunker ds with
      | none => rw [hrest] at h; exact absurd h (by simp)
      | some p =>
        obtain ⟨rest, e⟩ := p
        rw [hrest] at h
        simp only [Option.some.injEq, Prod.mk.injEq] at h
        rw [List.map_cons, List.flatten_cons, ← h.1, ih rest e hrest]
        simp [docChunks, hd]
    | skip =>
      rw [hd] at h
      cases hrest : processDocs chunker ds with
      | none => rw [hrest] at h; exact absurd h (by simp)
      | some p =>
        obtain ⟨rest, e⟩ := p
        rw [hrest] at h
        simp only [Option.some.injEq, Prod.mk.injEq] at h
        rw [List.map_cons, List.flatten_cons, ← h.1, ih rest e hrest]
        simp [docChunks, hd]
    | abort =>
      rw [hd] at h
      exact absurd h (by simp)

theorem runPipeline_calls (chunker : Chunker) :
    ∀ (gs : List Group) (r : PipelineResult),
      runPipeline chunker gs = some r →
      r.calls = gs.filterMap (groupCall chunker) := by
  intro gs
  induction gs with
  | nil =>
    intro r h
    simp only [runPipeline, Option.some.injEq] at h
    rw [← h]
    rfl
  | cons g gs ih =>
    intro r h
    cases g with
    | none =>
      simp only [runPipeline] at h
      rw [ih r h, List.filterMap_cons]
      rfl
    | some docs =>
      simp only [runPipeline] at h
      cases hdocs : processDocs chunker docs with
      | none => rw [hdocs] at h; exact absurd h (by simp)
      | some p =>
        obtain ⟨chunks, errs⟩ := p
        rw [hdocs] at h
        cases hrest : runPipeline chunker gs with
        | none => rw [hrest] at h; exact absurd h (by simp)
        | some r' =>
          rw [hrest] at h
          have h2 : (if chunks.isEmpty then
              some (⟨r'.calls, errs + r'.skipped, r'.total_chunks_added⟩ : PipelineResult)
            else
              some ⟨makeAddCall chunks :: r'.calls, errs + r'.skipped,
                chunks.length + r'.total_chunks_added⟩) = some r := h
          rw [List.filterMap_cons]
          by_cases hempty : chunks.isEmpty
          · rw [if_pos hempty] at h2
            simp only [Option.some.injEq] at h2
            have hg : groupCall chunker (some docs) = none := by
              simp [groupCall, hdocs, hempty]
            rw [hg, ← h2, ih r' hrest]
          · rw [if_neg hempty] at h2
            simp only [Option.some.injEq] at h2
            have hg : groupCall chunker (some docs) = some (makeAddCall chunks) := by
              simp [groupCall, hdocs, hempty]
            rw [hg, ← h2, ih r' hrest]

theorem groupCall_eq (chunker : Chunker) (g : Group) (call : AddCall)
    (h : groupCall chunker g = some call) : ∃ chunks : List Chunk, call = makeAddCall chunks := by
  cases g with
  | none => exact absurd h (by simp [groupCall])
  | some docs =>
    simp only [groupCall] at h
    cases hdocs : processDocs chunker docs with
    | none => rw [hdocs] at h; exact absurd h (by simp)
    | some p =>
      obtain ⟨chunks, errs⟩ := p
      rw [hdocs] at h
      have h2 : (if chunks.isEmpty then none else some (makeAddCall chunks)) = some call := h
      by_cases hempty : chunks.isEmpty
      · rw [if_pos hempty] at h2; exact absurd h2 (by simp)
      · rw [if_neg hempty] at h2
        exact ⟨chunks, (Option.some.inj h2).symm⟩


theorem processDocs_cons_ok (chunker : Chunker) (d : Doc) (ds : List Doc) (cs : List Chunk)
    (hd : processDoc chunker d = .ok cs) :
    processDocs chunker (d :: ds) = (processDocs chunker ds).map fun p => (cs ++ p.1, p.2) := by
  simp only [processDocs]
  rw [hd]
  cases processDocs chunker ds with
  | none => rfl
  | some p => rfl

theorem processDocs_cons_skip (chunker : Chunker) (d : Doc) (ds : List Doc)
    (hd : processDoc chunker d = .skip) :
    processDocs chunker (d :: ds) = (processDocs chunker ds).map fun p => (p.1, p.2 + 1) := by
  simp only [processDocs]
  rw [hd]
  cases processDocs chunker ds with
  | none => rfl
  | some p => rfl

theorem groupCall_none_of_empty (chunker : Chunker) (docs : List Doc) (k : Nat)
    (h : processDocs chunker docs = some ([], k)) : groupCall chunker (some docs) = none := by
  show (match processDocs chunker docs with
    | none => none
    | some (chunks, _) => if chunks.isEmpty then none else some (makeAddCall chunks)) = none
  rw [h]
  rfl

theorem emptyContent_docChunks (d : Doc) (hd : d.content = some "") :
    docChunks specChunker d = [] := by
  obtain ⟨c0, t0, s0, u0, dt0, sa0⟩ := d
  replace hd : c0 = some "" := hd
  subst hd
  cases t0 <;> cases s0 <;> cases u0 <;> rfl

theorem skip_of_missing (chunker : Chunker) (d : Doc)
    (ht : d.title.isSome) (hmiss : d.source = none ∨ d.url = none) :
    processDoc chunker d = .skip := by
  obtain ⟨c0, t0, s0, u0, dt0, sa0⟩ := d
  replace ht : t0.isSome := ht
  obtain ⟨t, rfl⟩ := Option.isSome_iff_exists.mp ht
  rcases hmiss with hs | hu
  · replace hs : s0 = none := hs
    subst hs
    cases c0 <;> cases u0 <;> rfl
  · replace hu : u0 = none := hu
    subst hu
    cases c0 <;> cases s0 <;> rfl

theorem emptyContent_outcome (d : Doc) (hc : d.content = some "") (ht : d.title.isSome) :
    processDoc specChunker d = .ok [] ∨ processDoc specChunker d = .skip := by
  obtain ⟨c0, t0, s0, u0, dt0, sa0⟩ := d
  replace hc : c0 = some "" := hc
  subst hc
  replace ht : t0.isSome := ht
  obtain ⟨t, rfl⟩ := Option.isSome_iff_exists.mp ht
  cases s0 <;> cases u0 <;> first | exact Or.inl rfl | exact Or.inr rfl



/-- C1: the claim says the id forwarded to the Vector Store is a stable hash
of `(source, url, chunk_index)` alone, independent of the rest of the batch.
The code instead assigns `source_i` with `i` the enumerate position inside
the whole source group: the single chunk of `docB` receives id `s_1` when
`docA` precedes it in the batch and `s_0` when `docB` is ingested alone, so
the id is an incrementing counter, not a function of the chunk's triple. -/
theorem claim_C1_code_divergence :
    runIds (runPipeline specChunker [some [docA, docB]]) = some [["s_0", "s_1"]] ∧
    runIds (runPipeline specChunker [some [docB]]) = some [["s_0"]] ∧
    ("s_1" : String) ≠ "s_0" := by decide

/-- C2: running the pipeline twice on the same input batch with the same
chunker produces identical id values for every chunk of every call. -/
theorem claim_C2 (chunker : Chunker) (gs1 gs2 : List Group) (h : gs1 = gs2) :
    runIds (runPipeline chunker gs1) = runIds (runPipeline chunker gs2) := by
  rw [h]

theorem claim_C2_witness :
    ([some [docA, docB]] : List Group) = [some [docA, docB]] ∧
    runIds (runPipeline specChunker [some [docA, docB]]) =
      runIds (runPipeline specChunker [some [docA, docB]]) :=
  ⟨rfl, claim_C2 specChunker [some [docA, docB]] [some [docA, docB]] rfl⟩

/-- C3: the claim says a failing document is always recorded and skipped and
never aborts the batch, naming both the missing-`content` and the
missing-`title` cases.  A document missing only `content` is indeed logged
and skipped, but for a document missing `title` the except handler itself
evaluates `doc['title']`, re-raises, and the whole run dies: the pipeline
returns no result for a 3-document batch whose middle document lacks
`title`. -/
theorem claim_C3_code_divergence :
    processDoc specChunker docNoTitle = .abort ∧
    runPipeline specChunker [some [docA, docNoTitle, docB]] = none ∧
    processDoc specChunker docNoContent = .skip ∧
    runPipeline specChunker [some [docA, docNoContent, docB]] =
      some ⟨[⟨["A", "B"], [metaA, metaB], ["s_0", "s_1"]⟩], 1, 2⟩ := by decide

/-- C4 counterexample: two source groups whose documents carry the same
`source` value produce two `add_documents` calls that both contain the id
`s_0` for two different chunks (their texts differ), so ids are not globally
unique per logical chunk across the calls of one run. -/
theorem claim_C4_counterexample :
    runPipeline specChunker [some [docA], some [docB]] =
      some ⟨[⟨["A"], [metaA], ["s_0"]⟩, ⟨["B"], [metaB], ["s_0"]⟩], 0, 2⟩ := by decide

/-- C4 (amended): within a single `add_documents` call the ids are pairwise
distinct; the suffix after the final underscore of `source_i` is the decimal
rendering of the enumerate index, which determines the position. -/
theorem claim_C4_amended (chunker : Chunker) (gs : List Group) (r : PipelineResult)
    (h : runPipeline chunker gs = some r) :
    ∀ call ∈ r.calls, call.ids.Nodup := by
  intro call hcall
  rw [runPipeline_calls chunker gs r h] at hcall
  obtain ⟨g, _, hg⟩ := List.mem_filterMap.mp hcall
  obtain ⟨chunks, rfl⟩ := groupCall_eq chunker g call hg
  exact makeAddCall_ids_nodup chunks

theorem claim_C4_amended_witness :
    (⟨["A", "B"], [metaA, metaB], ["s_0", "s_1"]⟩ : AddCall).ids.Nodup :=
  claim_C4_amended specChunker [some [docA, docB]]
    ⟨[⟨["A", "B"], [metaA, metaB], ["s_0", "s_1"]⟩], 0, 2⟩ (by decide)
    ⟨["A", "B"], [metaA, metaB], ["s_0", "s_1"]⟩ (by decide)

/-- C5: every completed run makes exactly one `add_documents` call per source
group that yielded chunks (the calls list is the per-group `groupCall`
filterMap), and in every call the `texts`, `metadatas` and `ids` sequences
have the same length as the underlying chunk list and are index-aligned:
position `k` holds the content, the metadata and the id of chunk `k`. -/
theorem claim_C5 (chunker : Chunker) (gs : List Group) (r : PipelineResult)
    (h : runPipeline chunker gs = some r) :
    r.calls = gs.filterMap (groupCall chunker) ∧
    ∀ call ∈ r.calls, ∃ chunks : List Chunk,
      call = makeAddCall chunks ∧
      call.texts.length = chunks.length ∧
      call.metadatas.length = chunks.length ∧
      call.ids.length = chunks.length ∧
      ∀ k : Nat, call.texts[k]? = (chunks[k]?).map Chunk.content ∧
        call.metadatas[k]? = (chunks[k]?).map Chunk.metadata ∧
        call.ids[k]? = (chunks[k]?).map fun c => chunkId c.metadata.source k := by
  refine ⟨runPipeline_calls chunker gs r h, ?_⟩
  intro call hcall
  rw [runPipeline_calls chunker gs r h] at hcall
  obtain ⟨g, _, hg⟩ := List.mem_filterMap.mp hcall
  obtain ⟨chunks, rfl⟩ := groupCall_eq chunker g call hg
  obtain ⟨l1, l2, l3⟩ := makeAddCall_lengths chunks
  exact ⟨chunks, rfl, l1, l2, l3, fun k =>
    ⟨makeAddCall_texts_getElem chunks k, makeAddCall_metadatas_getElem chunks k,
     makeAddCall_ids_getElem chunks k⟩⟩

theorem claim_C5_witness :
    (⟨[⟨["A", "B"], [metaA, metaB], ["s_0", "s_1"]⟩], 0, 2⟩ : PipelineResult).calls =
      ([some [docA, docB]] : List Group).filterMap (groupCall specChunker) ∧
    ∀ call ∈ (⟨[⟨["A", "B"], [metaA, metaB], ["s_0", "s_1"]⟩], 0, 2⟩ :
        PipelineResult).calls, ∃ chunks : List Chunk,
      call = makeAddCall chunks ∧
      call.texts.length = chunks.length ∧
      call.metadatas.length = chunks.length ∧
      call.ids.length = chunks.length ∧
      ∀ k : Nat, call.texts[k]? = (chunks[k]?).map Chunk.content ∧
        call.metadatas[k]? = (chunks[k]?).map Chunk.metadata ∧
        call.ids[k]? = (chunks[k]?).map fun c => chunkId c.metadata.source k :=
  claim_C5 specChunker [some [docA, docB]] _ (by decide)

/-- C6: for a batch of three documents whose middle one lacks `content`, the
pipeline forwards the chunks of documents 1 and 3, records exactly one
skipped-document failure, and completes without raising. -/
theorem claim_C6 :
    runPipeline specChunker [some [docA, docNoContent, docB]] =
      some ⟨[⟨["A", "B"], [metaA, metaB], ["s_0", "s_1"]⟩], 1, 2⟩ := by decide

/-- C7: the spec-modelled chunker yields zero chunks for empty content, a
document with empty content contributes no chunk to the group buffer, and a
source group all of whose documents have empty content produces no
`add_documents` call at all. -/
theorem claim_C7 :
    (∀ m : ChunkMeta, specChunker "" m = []) ∧
    (∀ d : Doc, d.content = some "" → docChunks specChunker d = []) ∧
    ∀ docs : List Doc, (∀ d ∈ docs, d.content = some "" ∧ d.title.isSome) →
      ∃ k : Nat, processDocs specChunker docs = some ([], k) ∧
        groupCall specChunker (some docs) = none := by
  refine ⟨fun m => rfl, emptyContent_docChunks, ?_⟩
  intro docs
  induction docs with
  | nil => exact fun _ => ⟨0, rfl, rfl⟩
  | cons d ds ih =>
    intro hall
    obtain ⟨k, hk, _⟩ := ih fun x hx => hall x (List.mem_cons_of_mem d hx)
    obtain ⟨hc, ht⟩ := hall d (List.mem_cons_self d ds)
    have hstep : processDocs specChunker (d :: ds) = some ([], k) ∨
        processDocs specChunker (d :: ds) = some ([], k + 1) := by
      rcases emptyContent_outcome d hc ht with hok | hskip
      · exact Or.inl (by rw [processDocs_cons_ok specChunker d ds [] hok, hk]; rfl)
      · exact Or.inr (by rw [processDocs_cons_skip specChunker d ds hskip, hk]; rfl)
    rcases hstep with hs | hs
    · exact ⟨k, hs, groupCall_none_of_empty specChunker (d :: ds) k hs⟩
    · exact ⟨k + 1, hs, groupCall_none_of_empty specChunker (d :: ds) (k + 1) hs⟩

theorem claim_C7_witness :
    docChunks specChunker docEmpty = [] ∧
    (∃ k : Nat, processDocs specChunker [docEmpty] = some ([], k) ∧
      groupCall specChunker (some [docEmpty]) = none) :=
  ⟨claim_C7.2.1 docEmpty rfl, claim_C7.2.2 [docEmpty] (by decide)⟩

/-- C8: the chunks of each successfully processed document form one
contiguous block of the group buffer, in the order the chunker produced
them, so their contents and metadata appear as the matching contiguous block
of the `texts` and `metadatas` sequences and their ids occupy the
consecutive, strictly increasing positions of that block. -/
theorem claim_C8 (chunker : Chunker) (ds : List Doc) (chunks : List Chunk) (errs : Nat)
    (h : processDocs chunker ds = some (chunks, errs)) (i : Nat) (hi : i < ds.length) :
    ∃ pre post : List Chunk,
      chunks = pre ++ docChunks chunker ds[i] ++ post ∧
      (makeAddCall chunks).texts = pre.map Chunk.content ++
        (docChunks chunker ds[i]).map Chunk.content ++ post.map Chunk.content ∧
      (makeAddCall chunks).metadatas = pre.map Chunk.metadata ++
        (docChunks chunker ds[i]).map Chunk.metadata ++ post.map Chunk.metadata ∧
      ∀ j : Nat, j < (docChunks chunker ds[i]).length →
        (makeAddCall chunks).ids[pre.length + j]? =
          ((docChunks chunker ds[i])[j]?).map
            fun c => chunkId c.metadata.source (pre.length + j) := by
  have hflat := processDocs_eq_flatten chunker ds chunks errs h
  have hds : ds = ds.take i ++ ds[i] :: ds.drop (i + 1) := by
    conv_lhs => rw [← List.take_append_drop i ds]
    rw [List.drop_eq_getElem_cons hi]
  have hchunks : chunks = ((ds.take i).map (docChunks chunker)).flatten ++
      docChunks chunker ds[i] ++ ((ds.drop (i + 1)).map (docChunks chunker)).flatten := by
    rw [hflat]
    conv_lhs => rw [hds]
    rw [List.map_append, List.map_cons, List.flatten_append, List.flatten_cons,
      ← List.append_assoc]
  refine ⟨((ds.take i).map (docChunks chunker)).flatten,
    ((ds.drop (i + 1)).map (docChunks chunker)).flatten, hchunks, ?_, ?_, ?_⟩
  · show chunks.map Chunk.content = _
    rw [hchunks, List.map_append, List.map_append]
  · show chunks.map Chunk.metadata = _
    rw [hchunks, List.map_append, List.map_append]
  · intro j hj
    rw [makeAddCall_ids_getElem chunks
      (((ds.take i).map (docChunks chunker)).flatten.length + j)]
    have hget : chunks[((ds.take i).map (docChunks chunker)).flatten.length + j]? =
        (docChunks chunker ds[i])[j]? := by
      rw [hchunks, List.append_assoc,
        List.getElem?_append_right
          (Nat.le_add_right ((ds.take i).map (docChunks chunker)).flatten.length j),
        Nat.add_sub_cancel_left, List.getElem?_append, if_pos hj]
    rw [hget]

theorem claim_C8_witness :
    ∃ pre post : List Chunk,
      ([⟨"A", metaA⟩, ⟨"B", metaB⟩] : List Chunk) =
        pre ++ docChunks specChunker ([docA, docNoContent, docB])[2] ++ post ∧
      (makeAddCall [⟨"A", metaA⟩, ⟨"B", metaB⟩]).texts = pre.map Chunk.content ++
        (docChunks specChunker ([docA, docNoContent, docB])[2]).map Chunk.content ++
        post.map Chunk.content ∧
      (makeAddCall [⟨"A", metaA⟩, ⟨"B", metaB⟩]).metadatas = pre.map Chunk.metadata ++
        (docChunks specChunker ([docA, docNoContent, docB])[2]).map Chunk.metadata ++
        post.map Chunk.metadata ∧
      ∀ j : Nat, j < (docChunks specChunker ([docA, docNoContent, docB])[2]).length →
        (makeAddCall [⟨"A", metaA⟩, ⟨"B", metaB⟩]).ids[pre.length + j]? =
          ((docChunks specChunker ([docA, docNoContent, docB])[2])[j]?).map
            fun c => chunkId c.metadata.source (pre.length + j) :=
  claim_C8 specChunker [docA, docNoContent, docB] [⟨"A", metaA⟩, ⟨"B", metaB⟩] 1
    (by decide) 2 (by decide)

/-- C9: a document whose `title` is present but whose `source` or `url` is
missing is skipped with a recorded failure, and the rest of the batch is
still processed: prepending such a document to any document list leaves the
chunks unchanged and increments the failure count by one. -/
theorem claim_C9 (chunker : Chunker) (d : Doc) (rest : List Doc)
    (ht : d.title.isSome) (hmiss : d.source = none ∨ d.url = none) :
    processDoc chunker d = .skip ∧
    processDocs chunker (d :: rest) = (processDocs chunker rest).map fun p => (p.1, p.2 + 1) :=
  have hskip := skip_of_missing chunker d ht hmiss
  ⟨hskip, processDocs_cons_skip chunker d rest hskip⟩

theorem claim_C9_witness :
    processDoc specChunker docNoUrl = .skip ∧
    processDocs specChunker (docNoUrl :: [docA]) =
      (processDocs specChunker [docA]).map fun p => (p.1, p.2 + 1) :=
  claim_C9 specChunker docNoUrl [docA] (by decide) (Or.inr rfl)

/-- C10: a document missing only the optional `doc_type` and `scraped_at`
fields is not rejected: the metadata handed to the chunker defaults
`doc_type` to `general` and `scraped_at` to the empty string while passing
`title`, `source` and `url` through unchanged, and every chunk the
spec-modelled chunker returns carries exactly that metadata. -/
theorem claim_C10 (chunker : Chunker) (d : Doc) (c t s u : String)
    (hc : d.content = some c) (ht : d.title = some t) (hs : d.source = some s)
    (hu : d.url = some u) (hdt : d.doc_type = none) (hsa : d.scraped_at = none) :
    buildMeta t s u d = ⟨t, s, u, "general", ""⟩ ∧
    processDoc chunker d = .ok (chunker c ⟨t, s, u, "general", ""⟩) ∧
    ∀ ch ∈ specChunker c ⟨t, s, u, "general", ""⟩,
      ch.metadata = ⟨t, s, u, "general", ""⟩ := by
  obtain ⟨c0, t0, s0, u0, dt0, sa0⟩ := d
  replace hc : c0 = some c := hc
  replace ht : t0 = some t := ht
  replace hs : s0 = some s := hs
  replace hu : u0 = some u := hu
  replace hdt : dt0 = none := hdt
  replace hsa : sa0 = none := hsa
  subst hc ht hs hu hdt hsa
  refine ⟨rfl, rfl, ?_⟩
  intro ch hch
  by_cases hw : c.data.all Char.isWhitespace
  · rw [show specChunker c ⟨t, s, u, "general", ""⟩ = [] from if_pos hw] at hch
    exact absurd hch (List.not_mem_nil ch)
  · rw [show specChunker c ⟨t, s, u, "general", ""⟩ = [⟨c, ⟨t, s, u, "general", ""⟩⟩]
      from if_neg hw] at hch
    rw [List.mem_singleton.mp hch]

theorem claim_C10_witness :
    buildMeta "T1" "s" "u1" docA = ⟨"T1", "s", "u1", "general", ""⟩ ∧
    processDoc specChunker docA = .ok (specChunker "A" ⟨"T1", "s", "u1", "general", ""⟩) ∧
    ∀ ch ∈ specChunker "A" ⟨"T1", "s", "u1", "general", ""⟩,
      ch.metadata = ⟨"T1", "s", "u1", "general", ""⟩ :=
  claim_C10 specChunker docA "A" "T1" "s" "u1" rfl rfl rfl rfl rfl rfl

end AddNewDocs
